import Mathlib

/-
  A verification development for the ionBench evaluation engine and
  population-evolution primitives.

  Parameter vectors are Python lists of floats, embedded as `List ℝ`.
  Per-parameter configuration arrays (`defaultParams`, `_logTransformParams`,
  `lb`, `ub`) are embedded as total functions on ℕ; the benchmarker only ever
  reads them at indices `i < n_parameters()`.
-/

namespace IonBench

/-- Configuration fields of `Benchmarker` that the parameter-space transforms
and the bound check read: `n` is `n_parameters()` (the length of
`self.defaultParams`), `useScaleFactors` is `self._useScaleFactors`,
`logTransformParams` is `self._logTransformParams`, `bounded` is
`self._bounded`, and `lb`, `ub` are the bounds set by `addBounds`. -/
structure Config where
  n : ℕ
  useScaleFactors : Bool
  logTransformParams : ℕ → Bool
  defaultParams : ℕ → ℝ
  bounded : Bool
  lb : ℕ → ℝ
  ub : ℕ → ℝ

/-- The value written into entry `i` by one iteration of the loop in
`Benchmarker.inputParameterSpace`: divide by the default parameter when scale
factors are on, then take the natural log when parameter `i` is
log-transformed. -/
noncomputable def inputElem (cfg : Config) (i : ℕ) (x : ℝ) : ℝ :=
  let s := if cfg.useScaleFactors then x / cfg.defaultParams i else x
  if cfg.logTransformParams i then Real.log s else s

/-- The value written into entry `i` by one iteration of the loop in
`Benchmarker.originalParameterSpace`: exponentiate when parameter `i` is
log-transformed, then multiply by the default parameter when scale factors
are on. -/
noncomputable def originalElem (cfg : Config) (i : ℕ) (x : ℝ) : ℝ :=
  let e := if cfg.logTransformParams i then Real.exp x else x
  if cfg.useScaleFactors then e * cfg.defaultParams i else e

/-- One iteration of the loop body of `Benchmarker.inputParameterSpace`:
`parameters[i] = parameters[i]/self.defaultParams[i]` when
`self._useScaleFactors`, then `parameters[i] = np.log(parameters[i])` when
`self._logTransformParams[i]`. The update is in place, on the list itself. -/
noncomputable def inputStep (cfg : Config) (p : List ℝ) (i : ℕ) : List ℝ :=
  let p1 := if cfg.useScaleFactors then p.set i (p.getD i 0 / cfg.defaultParams i) else p
  if cfg.logTransformParams i then p1.set i (Real.log (p1.getD i 0)) else p1

/-- One iteration of the loop body of `Benchmarker.originalParameterSpace`:
`parameters[i] = np.exp(parameters[i])` when `self._logTransformParams[i]`,
then `parameters[i] = parameters[i]*self.defaultParams[i]` when
`self._useScaleFactors`. -/
noncomputable def originalStep (cfg : Config) (p : List ℝ) (i : ℕ) : List ℝ :=
  let p1 := if cfg.logTransformParams i then p.set i (Real.exp (p.getD i 0)) else p
  if cfg.useScaleFactors then p1.set i (p1.getD i 0 * cfg.defaultParams i) else p1

/-- `Benchmarker.inputParameterSpace`: `for i in range(self.n_parameters())`,
run the loop body, then return the (mutated) list. -/
noncomputable def inputParameterSpace (cfg : Config) (p : List ℝ) : List ℝ :=
  (List.range cfg.n).foldl (inputStep cfg) p

/-- `Benchmarker.originalParameterSpace`: `for i in range(self.n_parameters())`,
run the loop body, then return the (mutated) list. -/
noncomputable def originalParameterSpace (cfg : Config) (p : List ℝ) : List ℝ :=
  (List.range cfg.n).foldl (originalStep cfg) p

/-- The full observable effect of one call to `Benchmarker.inputParameterSpace`:
the method assigns `parameters[i] = ...` on the caller's list and returns that
same list, so the pair (returned vector, argument after the call) has the
transformed vector in both components. -/
noncomputable def inputParameterSpaceCall (cfg : Config) (p : List ℝ) : List ℝ × List ℝ :=
  (inputParameterSpace cfg p, inputParameterSpace cfg p)

/-- The full observable effect of one call to
`Benchmarker.originalParameterSpace`, as for `inputParameterSpaceCall`. -/
noncomputable def originalParameterSpaceCall (cfg : Config) (p : List ℝ) : List ℝ × List ℝ :=
  (originalParameterSpace cfg p, originalParameterSpace cfg p)

/- Pointwise characterisation of the two transform loops. -/

lemma inputStep_length (cfg : Config) (p : List ℝ) (i : ℕ) :
    (inputStep cfg p i).length = p.length := by
  simp only [inputStep]
  split <;> split <;> simp

lemma originalStep_length (cfg : Config) (p : List ℝ) (i : ℕ) :
    (originalStep cfg p i).length = p.length := by
  simp only [originalStep]
  split <;> split <;> simp

lemma inputStep_getD_ne (cfg : Config) (p : List ℝ) (i j : ℕ) (h : j ≠ i) :
    (inputStep cfg p i).getD j 0 = p.getD j 0 := by
  simp only [inputStep]
  split <;> split <;>
    simp [List.getD_eq_getElem?_getD, List.getElem?_set_ne (Ne.symm h)]

lemma originalStep_getD_ne (cfg : Config) (p : List ℝ) (i j : ℕ) (h : j ≠ i) :
    (originalStep cfg p i).getD j 0 = p.getD j 0 := by
  simp only [originalStep]
  split <;> split <;>
    simp [List.getD_eq_getElem?_getD, List.getElem?_set_ne (Ne.symm h)]

lemma getD_set_self (p : List ℝ) (i : ℕ) (h : i < p.length) (a : ℝ) :
    (p.set i a).getD i 0 = a := by
  simp [List.getD_eq_getElem?_getD, List.getElem?_set_self, h]

lemma inputStep_getD_eq (cfg : Config) (p : List ℝ) (i : ℕ) (h : i < p.length) :
    (inputStep cfg p i).getD i 0 = inputElem cfg i (p.getD i 0) := by
  simp only [inputStep, inputElem]
  split <;> split <;>
    simp [getD_set_self, h, List.length_set]

lemma originalStep_getD_eq (cfg : Config) (p : List ℝ) (i : ℕ) (h : i < p.length) :
    (originalStep cfg p i).getD i 0 = originalElem cfg i (p.getD i 0) := by
  simp only [originalStep, originalElem]
  split <;> split <;>
    simp [getD_set_self, h, List.length_set]

lemma inputStep_eq_of_le (cfg : Config) (p : List ℝ) (i : ℕ) (h : p.length ≤ i) :
    inputStep cfg p i = p := by
  simp only [inputStep]
  split <;> split <;>
    simp [List.set_eq_of_length_le, h, List.set_eq_of_length_le (le_trans h (le_refl i))]

lemma originalStep_eq_of_le (cfg : Config) (p : List ℝ) (i : ℕ) (h : p.length ≤ i) :
    originalStep cfg p i = p := by
  simp only [originalStep]
  split <;> split <;>
    simp [List.set_eq_of_length_le, h]

lemma foldl_range_length (step : List ℝ → ℕ → List ℝ)
    (hlen : ∀ p i, (step p i).length = p.length) (m : ℕ) (p : List ℝ) :
    ((List.range m).foldl step p).length = p.length := by
  induction m generalizing p with
  | zero => simp
  | succ m ih => rw [List.range_succ, List.foldl_append]; simp [hlen, ih]

/-- An index-local loop body folded over `range m` acts pointwise: entry `j`
of the result is the elementwise image of entry `j` of the argument when
`j < m` and `j` is a real index, and is unchanged otherwise. -/
lemma foldl_range_getD (step : List ℝ → ℕ → List ℝ) (elem : ℕ → ℝ → ℝ)
    (hlen : ∀ p i, (step p i).length = p.length)
    (hne : ∀ p i j, j ≠ i → (step p i).getD j 0 = p.getD j 0)
    (heq : ∀ p i, i < p.length → (step p i).getD i 0 = elem i (p.getD i 0))
    (hout : ∀ p i, p.length ≤ i → step p i = p)
    (m : ℕ) (p : List ℝ) (j : ℕ) :
    ((List.range m).foldl step p).getD j 0 =
      if j < m ∧ j < p.length then elem j (p.getD j 0) else p.getD j 0 := by
  induction m generalizing p with
  | zero => simp
  | succ m ih =>
    rw [List.range_succ, List.foldl_append]
    simp only [List.foldl_cons, List.foldl_nil]
    have hql : ((List.range m).foldl step p).length = p.length :=
      foldl_range_length step hlen m p
    by_cases hjm : j = m
    · subst hjm
      by_cases hlt : j < p.length
      · rw [heq _ _ (hql ▸ hlt), ih]
        simp [hlt]
      · rw [hout _ _ (hql ▸ le_of_not_lt hlt), ih]
        simp [hlt]
    · rw [hne _ _ _ hjm, ih]
      have : j < m + 1 ↔ j < m := by omega
      simp [this]

lemma inputParameterSpace_getD (cfg : Config) (p : List ℝ) (j : ℕ) :
    (inputParameterSpace cfg p).getD j 0 =
      if j < cfg.n ∧ j < p.length then inputElem cfg j (p.getD j 0) else p.getD j 0 :=
  foldl_range_getD (inputStep cfg) (inputElem cfg) (inputStep_length cfg)
    (inputStep_getD_ne cfg) (inputStep_getD_eq cfg) (inputStep_eq_of_le cfg) cfg.n p j

lemma originalParameterSpace_getD (cfg : Config) (p : List ℝ) (j : ℕ) :
    (originalParameterSpace cfg p).getD j 0 =
      if j < cfg.n ∧ j < p.length then originalElem cfg j (p.getD j 0) else p.getD j 0 :=
  foldl_range_getD (originalStep cfg) (originalElem cfg) (originalStep_length cfg)
    (originalStep_getD_ne cfg) (originalStep_getD_eq cfg) (originalStep_eq_of_le cfg) cfg.n p j

lemma inputParameterSpace_length (cfg : Config) (p : List ℝ) :
    (inputParameterSpace cfg p).length = p.length :=
  foldl_range_length _ (inputStep_length cfg) cfg.n p

lemma originalParameterSpace_length (cfg : Config) (p : List ℝ) :
    (originalParameterSpace cfg p).length = p.length :=
  foldl_range_length _ (originalStep_length cfg) cfg.n p

/-- With scale factors off and no log-transformed parameter, both transforms
are the identity. -/
lemma originalParameterSpace_id (cfg : Config) (p : List ℝ)
    (h1 : cfg.useScaleFactors = false) (h2 : ∀ i, cfg.logTransformParams i = false) :
    originalParameterSpace cfg p = p := by
  have hstep : ∀ (q : List ℝ) (i : ℕ), originalStep cfg q i = q := by
    intro q i; simp [originalStep, h1, h2]
  unfold originalParameterSpace
  generalize List.range cfg.n = l
  induction l generalizing p with
  | nil => rfl
  | cons a l ih => simp [hstep, ih]

/-- Inverting one element: exponentiate-then-unscale undoes
scale-then-log, given a positive default parameter and a positive value at
log-transformed indices. -/
lemma originalElem_inputElem (cfg : Config) (i : ℕ) (x : ℝ)
    (hd : 0 < cfg.defaultParams i)
    (hx : cfg.logTransformParams i = true → 0 < x) :
    originalElem cfg i (inputElem cfg i x) = x := by
  simp only [inputElem, originalElem]
  by_cases hlog : cfg.logTransformParams i = true
  · by_cases hsf : cfg.useScaleFactors = true
    · simp only [hlog, hsf, if_true]
      rw [Real.exp_log (div_pos (hx hlog) hd), div_mul_cancel₀ x hd.ne']
    · simp [hlog, hsf, Real.exp_log (hx hlog)]
  · by_cases hsf : cfg.useScaleFactors = true
    · simp [hlog, hsf, div_mul_cancel₀ x hd.ne']
    · simp [hlog, hsf]

/-- C3: for every parameter vector in original space (positive wherever a log
transform applies), every scale-factor flag and every combination of
per-parameter log-transform flags over positive default parameters,
`originalParameterSpace (inputParameterSpace v)` reproduces `v` entrywise
within 1e-10 relative tolerance. -/
theorem roundTrip_rel_tol (cfg : Config) (v : List ℝ) (i : ℕ)
    (hd : ∀ j, 0 < cfg.defaultParams j)
    (hv : ∀ j, cfg.logTransformParams j = true → 0 < v.getD j 0) :
    |(originalParameterSpace cfg (inputParameterSpace cfg v)).getD i 0 - v.getD i 0|
      ≤ 1e-10 * |v.getD i 0| := by
  have key : (originalParameterSpace cfg (inputParameterSpace cfg v)).getD i 0
      = v.getD i 0 := by
    rw [originalParameterSpace_getD, inputParameterSpace_getD,
      inputParameterSpace_length]
    by_cases h : i < cfg.n ∧ i < v.length
    · rw [if_pos h, if_pos h, originalElem_inputElem cfg i _ (hd i) (hv i)]
    · rw [if_neg h, if_neg h]
  rw [key, sub_self, abs_zero]
  positivity

/-- Concrete configuration for the C3 witness: two parameters, scale factors
on, the second parameter log-transformed, default parameters 2 and 4. -/
noncomputable def cfgC3 : Config :=
  ⟨2, true, fun i => decide (i = 1), fun i => if i = 0 then 2 else 4,
    false, fun _ => 0, fun _ => 0⟩

/-- Witness for C3 at the vector `[3, 1]` and index 1. -/
theorem roundTrip_rel_tol_witness :
    (∀ j, 0 < cfgC3.defaultParams j) ∧
    (∀ j, cfgC3.logTransformParams j = true → 0 < ([3, 1] : List ℝ).getD j 0) ∧
    |(originalParameterSpace cfgC3 (inputParameterSpace cfgC3 [3, 1])).getD 1 0
        - ([3, 1] : List ℝ).getD 1 0|
      ≤ 1e-10 * |([3, 1] : List ℝ).getD 1 0| := by
  have hd : ∀ j, 0 < cfgC3.defaultParams j := by
    intro j
    by_cases h : j = 0 <;> simp [cfgC3, h]
  have hv : ∀ j, cfgC3.logTransformParams j = true → 0 < ([3, 1] : List ℝ).getD j 0 := by
    intro j hj
    simp only [cfgC3, decide_eq_true_eq] at hj
    subst hj
    norm_num
  exact ⟨hd, hv, roundTrip_rel_tol cfgC3 [3, 1] 1 hd hv⟩

/-- C9 (amended): each transform computes its result elementwise from the
argument vector and the configuration alone, and the pair returned by the
call model shows the caller's argument holds the same transformed vector
afterwards (the return value aliases the argument). -/
theorem transforms_elementwise_but_in_place (cfg : Config) (p : List ℝ) (j : ℕ) :
    (inputParameterSpaceCall cfg p).1.getD j 0
        = (if j < cfg.n ∧ j < p.length then inputElem cfg j (p.getD j 0) else p.getD j 0)
    ∧ (inputParameterSpaceCall cfg p).2 = (inputParameterSpaceCall cfg p).1
    ∧ (originalParameterSpaceCall cfg p).1.getD j 0
        = (if j < cfg.n ∧ j < p.length then originalElem cfg j (p.getD j 0) else p.getD j 0)
    ∧ (originalParameterSpaceCall cfg p).2 = (originalParameterSpaceCall cfg p).1 :=
  ⟨inputParameterSpace_getD cfg p j, rfl, originalParameterSpace_getD cfg p j, rfl⟩

/-- Concrete configuration for the C9 counterexample: one parameter, scale
factors on, default parameter 2, nothing else active. -/
noncomputable def cfgC9 : Config :=
  ⟨1, true, fun _ => false, fun _ => 2, false, fun _ => 0, fun _ => 0⟩

/-- C9 counterexample: calling `inputParameterSpace` on the list `[2]` with
scale factors on leaves the caller's argument holding `[1]`, not `[2]` — the
transform writes into the argument in place, so the claim that the caller's
vector is unchanged fails. -/
theorem inputParameterSpace_mutates_argument :
    (inputParameterSpaceCall cfgC9 [2]).2 ≠ [2] := by
  have hval : (inputParameterSpaceCall cfgC9 [2]).2 = [1] := by
    show inputParameterSpace cfgC9 [2] = [1]
    unfold inputParameterSpace
    have hr : List.range cfgC9.n = [0] := by simp [cfgC9, List.range_succ]
    rw [hr]
    simp only [List.foldl_cons, List.foldl_nil, inputStep, cfgC9]
    norm_num
  rw [hval]
  intro h
  simp only [List.cons.injEq, and_true] at h
  norm_num at h

/- ## Tracker -/

/-- Root-mean-square relative error of the estimated parameters against the
true parameters over the first `n` entries:
`np.sqrt(np.mean(((estimatedParams-trueParams)/trueParams)**2))`. -/
noncomputable def rmsreVal (trueParams : ℕ → ℝ) (est : List ℝ) (n : ℕ) : ℝ :=
  Real.sqrt ((∑ i ∈ Finset.range n, ((est.getD i 0 - trueParams i) / trueParams i) ^ 2) / n)

/-- Number of parameters identified within 5 percent of the true value:
`np.sum(np.abs((estimatedParams-trueParams)/trueParams)<0.05)`. -/
noncomputable def identifiedVal (trueParams : ℕ → ℝ) (est : List ℝ) (n : ℕ) : ℕ :=
  ((List.range n).filter
    (fun i => decide (|(est.getD i 0 - trueParams i) / trueParams i| < 0.05))).length

/-- The performance-metric state of `Tracker`. Costs are floats that may be
`np.inf`, embedded as `WithTop ℝ` with `⊤` standing for `np.inf`. -/
structure Tracker where
  costs : List (WithTop ℝ)
  paramRMSRE : List ℝ
  paramIdentifiedCount : List ℕ
  solveCount : ℕ

/-- `Tracker.__init__`: three empty metric lists and a zero solve count. -/
def Tracker.init : Tracker := ⟨[], [], [], 0⟩

/-- `Tracker.update(trueParams, estimatedParams, cost, incrementSolveCounter)`:
append the parameter RMSRE, the identified-parameter count and the cost, and
increment `solveCount` exactly when `incrementSolveCounter` is true. -/
noncomputable def Tracker.update (t : Tracker) (trueParams : ℕ → ℝ) (est : List ℝ)
    (n : ℕ) (cost : WithTop ℝ) (incrementSolveCounter : Bool) : Tracker :=
  { costs := t.costs ++ [cost]
    paramRMSRE := t.paramRMSRE ++ [rmsreVal trueParams est n]
    paramIdentifiedCount := t.paramIdentifiedCount ++ [identifiedVal trueParams est n]
    solveCount := t.solveCount + (if incrementSolveCounter then 1 else 0) }

/- ## Benchmarker and the evaluation pipeline -/

/-- `Benchmarker.inBounds(parameters)`: when `self._bounded`, every entry of
the original-space vector must satisfy `lb[i] <= parameters[i] <= ub[i]`;
without bounds the check always passes. The source returns `False` exactly
when `any(parameters[i]<self.lb[i] or parameters[i]>self.ub[i])`. -/
def inBounds (cfg : Config) (p : List ℝ) : Prop :=
  cfg.bounded = true → ∀ i < cfg.n, cfg.lb i ≤ p.getD i 0 ∧ p.getD i 0 ≤ cfg.ub i

/-- A benchmark problem: the transform/bounds configuration, the true
parameters, the reference data over `m` time points, and the external
simulator. The simulator (`myokit` solving in `solveModel`) is an out-of-scope
collaborator: it is embedded as an opaque function on original-space
parameter vectors returning `none` when `sim.run` raises. -/
structure Benchmarker where
  cfg : Config
  trueParams : ℕ → ℝ
  data : ℕ → ℝ
  m : ℕ
  solver : List ℝ → Option (List ℝ)

/-- Mutable per-run state outside the tracker: `solverCalls` counts how often
the external simulator was actually invoked (one per `solveModel` call). -/
structure RunState where
  tracker : Tracker
  solverCalls : ℕ

/-- RMSE between a model trace and the reference data:
`np.sqrt(np.mean((testOutput-self.data)**2))`. A failed or aborted solve
yields the all-`np.inf` trace `[np.inf]*len(times)`, embedded as `none`;
since the reference data are finite floats, the numpy expression then
evaluates to `np.inf`, i.e. `⊤`. -/
noncomputable def costOf (bm : Benchmarker) (out : Option (List ℝ)) : WithTop ℝ :=
  match out with
  | none => ⊤
  | some trace =>
      ((Real.sqrt ((∑ i ∈ Finset.range bm.m, (trace.getD i 0 - bm.data i) ^ 2) / bm.m)
        : ℝ) : WithTop ℝ)

/-- `Benchmarker.solveModel(times, continueOnError=True)`: run the simulator
on the parameters previously installed by `setParams` (passed here
explicitly) and return the trace; when `sim.run` raises, the `except` branch
returns the all-infinite trace, embedded as `none`. Each call invokes the
external simulator once. -/
def solveModel (bm : Benchmarker) (s : RunState) (original : List ℝ) :
    Option (List ℝ) × RunState :=
  (bm.solver original, { s with solverCalls := s.solverCalls + 1 })

open Classical in
/-- `Benchmarker.simulate(parameters, times, continueOnError=True,
incrementSolveCounter)`: map the input-space vector back to original space;
if the result is out of bounds, record an `np.inf` cost without incrementing
the solve counter and return the all-infinite trace; otherwise set the
parameters, solve the model, and record the RMSE of the trace (infinite on a
solver failure), incrementing the solve counter as requested. -/
noncomputable def Benchmarker.simulate (bm : Benchmarker) (s : RunState) (p : List ℝ)
    (incrementSolveCounter : Bool) : Option (List ℝ) × RunState :=
  let parameters := originalParameterSpace bm.cfg p
  if inBounds bm.cfg parameters then
    let r := solveModel bm s parameters
    (r.1, { r.2 with
      tracker := (r.2.tracker.update bm.trueParams parameters bm.cfg.n
        (costOf bm r.1) incrementSolveCounter) })
  else
    (none, { s with
      tracker := (s.tracker.update bm.trueParams parameters bm.cfg.n ⊤ false) })

/-- `Benchmarker.cost(parameters, incrementSolveCounter=True)`: simulate and
return the RMSE against the data. The pipeline is total — bound violations
and solver failures both surface as the value `⊤` (`np.inf`), never as an
exception. -/
noncomputable def Benchmarker.cost (bm : Benchmarker) (s : RunState) (p : List ℝ)
    (incrementSolveCounter : Bool) : WithTop ℝ × RunState :=
  let r := bm.simulate s p incrementSolveCounter
  (costOf bm r.1, r.2)

/- ## The memoised cost function of the genetic algorithms -/

open Classical in
/-- `functools.lru_cache(maxsize=None)` lookup: the cache holds one entry per
distinct argument tuple, keyed on the exact input-space vector. -/
noncomputable def lookupCache : List (List ℝ × WithTop ℝ) → List ℝ → Option (WithTop ℝ)
  | [], _ => none
  | (k, c) :: rest, x => if k = x then some c else lookupCache rest x

/-- State seen by the memoised `cost_func`: the `lru_cache` table plus the
benchmarker's run state. -/
structure CacheState where
  cache : List (List ℝ × WithTop ℝ)
  run : RunState

/-- Fresh state: empty cache, fresh tracker, no solver calls. -/
def initState : CacheState := ⟨[], ⟨Tracker.init, 0⟩⟩

/-- `cost_func(x)` from `GA_Bot2012.run` (and `GA_Gurkiewicz2007b.run`),
decorated with `@lru_cache(maxsize=None)`: on a hit the stored cost is
returned and `bm.cost` is never entered; on a miss `bm.cost(x)` runs and its
result is stored under the exact key `x`. -/
noncomputable def costFunc (bm : Benchmarker) (cs : CacheState) (x : List ℝ) :
    WithTop ℝ × CacheState :=
  match lookupCache cs.cache x with
  | some c => (c, cs)
  | none =>
      let r := bm.cost cs.run x true
      (r.1, ⟨cs.cache ++ [(x, r.1)], r.2⟩)

/-- A sequence of `cost_func` calls on one benchmarker, threading the cache
and run state. -/
noncomputable def runCalls (bm : Benchmarker) (cs : CacheState)
    (xs : List (List ℝ)) : CacheState :=
  xs.foldl (fun c x => (costFunc bm c x).2) cs

open Classical in
/-- The number of calls in `xs` that are not cache hits (their key is not
among the previously seen keys `seen`) and whose original-space image passes
the bound check — the calls the claim says are solve-counted. Every miss is
added to the seen keys afterwards, as `lru_cache` stores every result. -/
noncomputable def newSolves (bm : Benchmarker) : List (List ℝ) → List (List ℝ) → ℕ
  | _, [] => 0
  | seen, x :: xs =>
      if x ∈ seen then newSolves bm seen xs
      else
        (if inBounds bm.cfg (originalParameterSpace bm.cfg x) then 1 else 0)
          + newSolves bm (seen ++ [x]) xs

/- ## Unfolding lemmas for single pipeline steps -/

lemma cost_out_of_bounds (bm : Benchmarker) (s : RunState) (p : List ℝ) (inc : Bool)
    (h : ¬ inBounds bm.cfg (originalParameterSpace bm.cfg p)) :
    bm.cost s p inc
      = (⊤, ⟨s.tracker.update bm.trueParams (originalParameterSpace bm.cfg p)
          bm.cfg.n ⊤ false, s.solverCalls⟩) := by
  simp only [Benchmarker.cost, Benchmarker.simulate, if_neg h]
  rfl

lemma cost_in_bounds (bm : Benchmarker) (s : RunState) (p : List ℝ) (inc : Bool)
    (h : inBounds bm.cfg (originalParameterSpace bm.cfg p)) :
    bm.cost s p inc
      = (costOf bm (bm.solver (originalParameterSpace bm.cfg p)),
         ⟨s.tracker.update bm.trueParams (originalParameterSpace bm.cfg p) bm.cfg.n
            (costOf bm (bm.solver (originalParameterSpace bm.cfg p))) inc,
          s.solverCalls + 1⟩) := by
  simp only [Benchmarker.cost, Benchmarker.simulate, if_pos h, solveModel]

lemma update_solveCount (t : Tracker) (tp : ℕ → ℝ) (est : List ℝ) (n : ℕ)
    (c : WithTop ℝ) (inc : Bool) :
    (t.update tp est n c inc).solveCount = t.solveCount + (if inc then 1 else 0) := rfl

lemma update_costs (t : Tracker) (tp : ℕ → ℝ) (est : List ℝ) (n : ℕ)
    (c : WithTop ℝ) (inc : Bool) :
    (t.update tp est n c inc).costs = t.costs ++ [c] := rfl

open Classical in
lemma cost_solveCount_true (bm : Benchmarker) (s : RunState) (p : List ℝ) :
    (bm.cost s p true).2.tracker.solveCount
      = s.tracker.solveCount
        + (if inBounds bm.cfg (originalParameterSpace bm.cfg p) then 1 else 0) := by
  by_cases h : inBounds bm.cfg (originalParameterSpace bm.cfg p)
  · rw [cost_in_bounds bm s p true h, if_pos h]
    simp [update_solveCount]
  · rw [cost_out_of_bounds bm s p true h, if_neg h]
    simp [update_solveCount]

/-- C4: when the original-space image of the candidate fails the bound check,
`cost` returns `np.inf`, a tracker record with infinite cost is appended, the
solve counter is unchanged, and the external simulator is not invoked. -/
theorem bound_violation_cost (bm : Benchmarker) (s : RunState) (p : List ℝ) (inc : Bool)
    (h : ¬ inBounds bm.cfg (originalParameterSpace bm.cfg p)) :
    (bm.cost s p inc).1 = ⊤
    ∧ (bm.cost s p inc).2.tracker.costs = s.tracker.costs ++ [⊤]
    ∧ (bm.cost s p inc).2.tracker.solveCount = s.tracker.solveCount
    ∧ (bm.cost s p inc).2.solverCalls = s.solverCalls := by
  rw [cost_out_of_bounds bm s p inc h]
  refine ⟨rfl, ?_, ?_, rfl⟩
  · simp [update_costs]
  · simp [update_solveCount]

/-- The benchmarker of the C4 witness: two parameters, no transforms, bounds
`lb = [0.5, 0.5]`, `ub = [1.5, 1.5]`. -/
noncomputable def bmC4 : Benchmarker :=
  ⟨⟨2, false, fun _ => false, fun _ => 1, true, fun _ => 0.5, fun _ => 1.5⟩,
    fun _ => 1, fun _ => 0, 1, fun _ => some [0]⟩

/-- Witness for C4: the candidate `[0.4, 1.0]` violates the lower bound, so
`cost` returns `⊤`, appends a `⊤` record, and leaves the solve counter and
the simulator invocation count untouched. -/
theorem bound_violation_cost_witness :
    ¬ inBounds bmC4.cfg (originalParameterSpace bmC4.cfg [0.4, 1.0])
    ∧ (bmC4.cost ⟨Tracker.init, 0⟩ [0.4, 1.0] true).1 = ⊤
    ∧ (bmC4.cost ⟨Tracker.init, 0⟩ [0.4, 1.0] true).2.tracker.costs = [⊤]
    ∧ (bmC4.cost ⟨Tracker.init, 0⟩ [0.4, 1.0] true).2.tracker.solveCount = 0
    ∧ (bmC4.cost ⟨Tracker.init, 0⟩ [0.4, 1.0] true).2.solverCalls = 0 := by
  have horig : originalParameterSpace bmC4.cfg [0.4, 1.0] = [0.4, 1.0] :=
    originalParameterSpace_id _ _ rfl (fun _ => rfl)
  have h : ¬ inBounds bmC4.cfg (originalParameterSpace bmC4.cfg [0.4, 1.0]) := by
    rw [horig]
    intro hcl
    have h0 := (hcl rfl 0 (by norm_num [bmC4])).1
    norm_num [bmC4] at h0
  have hmain := bound_violation_cost bmC4 ⟨Tracker.init, 0⟩ [0.4, 1.0] true h
  exact ⟨h, hmain.1, by simpa [Tracker.init] using hmain.2.1, hmain.2.2.1, hmain.2.2.2⟩

/-- C5: when the candidate is in bounds but the external simulator fails,
`cost` absorbs the failure — it returns the value `np.inf` rather than
raising — and the solve counter is still incremented, with the infinite cost
recorded. -/
theorem solver_failure_cost (bm : Benchmarker) (s : RunState) (p : List ℝ)
    (hb : inBounds bm.cfg (originalParameterSpace bm.cfg p))
    (hf : bm.solver (originalParameterSpace bm.cfg p) = none) :
    (bm.cost s p true).1 = ⊤
    ∧ (bm.cost s p true).2.tracker.costs = s.tracker.costs ++ [⊤]
    ∧ (bm.cost s p true).2.tracker.solveCount = s.tracker.solveCount + 1 := by
  rw [cost_in_bounds bm s p true hb, hf]
  refine ⟨rfl, ?_, ?_⟩
  · simp [update_costs, costOf]
  · simp [update_solveCount]

/-- The benchmarker of the C5 witness: one parameter, no transforms, no
bounds, and a simulator that always raises. -/
noncomputable def bmC5 : Benchmarker :=
  ⟨⟨1, false, fun _ => false, fun _ => 1, false, fun _ => 0, fun _ => 0⟩,
    fun _ => 1, fun _ => 0, 1, fun _ => none⟩

/-- Witness for C5 at the in-bounds candidate `[1.0]`. -/
theorem solver_failure_cost_witness :
    inBounds bmC5.cfg (originalParameterSpace bmC5.cfg [1.0])
    ∧ bmC5.solver (originalParameterSpace bmC5.cfg [1.0]) = none
    ∧ (bmC5.cost ⟨Tracker.init, 0⟩ [1.0] true).1 = ⊤
    ∧ (bmC5.cost ⟨Tracker.init, 0⟩ [1.0] true).2.tracker.costs = [⊤]
    ∧ (bmC5.cost ⟨Tracker.init, 0⟩ [1.0] true).2.tracker.solveCount = 1 := by
  have hb : inBounds bmC5.cfg (originalParameterSpace bmC5.cfg [1.0]) := by
    intro hcl
    exact absurd hcl (by simp [bmC5])
  have hmain := solver_failure_cost bmC5 ⟨Tracker.init, 0⟩ [1.0] hb rfl
  exact ⟨hb, rfl, hmain.1, by simpa [Tracker.init] using hmain.2.1,
    by simpa [Tracker.init] using hmain.2.2⟩

/- ## Cache behaviour -/

lemma costFunc_hit (bm : Benchmarker) (cs : CacheState) (x : List ℝ) (c : WithTop ℝ)
    (h : lookupCache cs.cache x = some c) : costFunc bm cs x = (c, cs) := by
  simp [costFunc, h]

lemma costFunc_miss (bm : Benchmarker) (cs : CacheState) (x : List ℝ)
    (h : lookupCache cs.cache x = none) :
    costFunc bm cs x
      = ((bm.cost cs.run x true).1,
         ⟨cs.cache ++ [(x, (bm.cost cs.run x true).1)], (bm.cost cs.run x true).2⟩) := by
  simp [costFunc, h]

/-- C2 (amended): when `cost_func` is called on a key already in the
`lru_cache`, the stored cost is returned — the very value computed the first
time, hence bit-identical — and the whole state is left untouched: no tracker
record is appended and the solve counter does not move. The wrapped
`bm.cost` is never entered, so the cost history shows only first-time
evaluations. -/
theorem cache_hit_returns_stored_cost (bm : Benchmarker) (cs : CacheState)
    (x : List ℝ) (c : WithTop ℝ) (h : lookupCache cs.cache x = some c) :
    (costFunc bm cs x).1 = c
    ∧ (costFunc bm cs x).2 = cs
    ∧ (costFunc bm cs x).2.run.tracker.costs = cs.run.tracker.costs
    ∧ (costFunc bm cs x).2.run.tracker.solveCount = cs.run.tracker.solveCount := by
  rw [costFunc_hit bm cs x c h]
  exact ⟨rfl, rfl, rfl, rfl⟩

/-- The benchmarker of the C2 scenario: one parameter, no transforms, no
bounds, a simulator that always succeeds with the trace `[0]`. -/
noncomputable def bmC2 : Benchmarker :=
  ⟨⟨1, false, fun _ => false, fun _ => 1, false, fun _ => 0, fun _ => 0⟩,
    fun _ => 1, fun _ => 0, 1, fun _ => some [0]⟩

/-- Witness for the amended C2: a cache already holding cost 5 for the key
`[1]`. -/
theorem cache_hit_returns_stored_cost_witness :
    lookupCache [([1], ((5 : ℝ) : WithTop ℝ))] [1] = some ((5 : ℝ) : WithTop ℝ)
    ∧ (costFunc bmC2 ⟨[([1], ((5 : ℝ) : WithTop ℝ))], ⟨Tracker.init, 0⟩⟩ [1]).1
        = ((5 : ℝ) : WithTop ℝ)
    ∧ (costFunc bmC2 ⟨[([1], ((5 : ℝ) : WithTop ℝ))], ⟨Tracker.init, 0⟩⟩ [1]).2.run.tracker.costs
        = [] := by
  have h : lookupCache [([1], ((5 : ℝ) : WithTop ℝ))] [1] = some ((5 : ℝ) : WithTop ℝ) := by
    simp [lookupCache]
  have hmain := cache_hit_returns_stored_cost bmC2
    ⟨[([1], ((5 : ℝ) : WithTop ℝ))], ⟨Tracker.init, 0⟩⟩ [1] ((5 : ℝ) : WithTop ℝ) h
  exact ⟨h, hmain.1, by simpa [Tracker.init] using hmain.2.2.1⟩

/-- C2 counterexample: calling `cost_func` twice with the identical key `[1]`
leaves exactly one entry in the tracker's cost history, not two — on the
cache hit no tracker record is appended, refuting the claim that the cost
history shows every call. (The solve count is 1, as the claim says.) -/
theorem repeated_call_appends_no_record :
    (runCalls bmC2 initState [[1], [1]]).run.tracker.costs.length = 1
    ∧ (runCalls bmC2 initState [[1], [1]]).run.tracker.solveCount = 1 := by
  have hb : inBounds bmC2.cfg (originalParameterSpace bmC2.cfg [1]) := by
    intro hcl
    exact absurd hcl (by simp [bmC2])
  have hrun : runCalls bmC2 initState [[1], [1]]
      = (costFunc bmC2 (costFunc bmC2 initState [1]).2 [1]).2 := by
    simp [runCalls]
  have h1 : costFunc bmC2 initState [1]
      = ((bmC2.cost initState.run [1] true).1,
         ⟨[([1], (bmC2.cost initState.run [1] true).1)],
          (bmC2.cost initState.run [1] true).2⟩) := by
    simpa [initState] using costFunc_miss bmC2 initState [1] rfl
  have hcost := cost_in_bounds bmC2 initState.run [1] true hb
  have h2 : lookupCache [([1], (bmC2.cost initState.run [1] true).1)] [1]
      = some (bmC2.cost initState.run [1] true).1 := by
    simp [lookupCache]
  rw [hrun, h1, costFunc_hit bmC2 _ [1] _ h2]
  rw [hcost]
  simp [initState, Tracker.init, update_costs, update_solveCount]

/- ## C1: the solve-count invariant over a call sequence -/

lemma lookupCache_eq_none_iff (cache : List (List ℝ × WithTop ℝ)) (x : List ℝ) :
    lookupCache cache x = none ↔ x ∉ cache.map Prod.fst := by
  induction cache with
  | nil => simp [lookupCache]
  | cons e rest ih =>
    obtain ⟨k, c⟩ := e
    by_cases hk : k = x
    · subst hk
      simp [lookupCache]
    · simp [lookupCache, hk, ih, Ne.symm hk]

lemma runCalls_cons (bm : Benchmarker) (cs : CacheState) (x : List ℝ)
    (xs : List (List ℝ)) :
    runCalls bm cs (x :: xs) = runCalls bm (costFunc bm cs x).2 xs := rfl

open Classical in
lemma runCalls_solveCount (bm : Benchmarker) (xs : List (List ℝ)) :
    ∀ cs : CacheState,
      (runCalls bm cs xs).run.tracker.solveCount
        = cs.run.tracker.solveCount + newSolves bm (cs.cache.map Prod.fst) xs := by
  induction xs with
  | nil => intro cs; simp [runCalls, newSolves]
  | cons x xs ih =>
    intro cs
    rw [runCalls_cons]
    by_cases hx : x ∈ cs.cache.map Prod.fst
    · obtain ⟨c, hc⟩ : ∃ c, lookupCache cs.cache x = some c := by
        rcases h : lookupCache cs.cache x with _ | c
        · exact absurd ((lookupCache_eq_none_iff _ _).1 h) (not_not_intro hx)
        · exact ⟨c, rfl⟩
      rw [costFunc_hit bm cs x c hc, ih cs]
      have : newSolves bm (cs.cache.map Prod.fst) (x :: xs)
          = newSolves bm (cs.cache.map Prod.fst) xs := by
        simp [newSolves, hx]
      rw [this]
    · have hnone : lookupCache cs.cache x = none := (lookupCache_eq_none_iff _ _).2 hx
      rw [costFunc_miss bm cs x hnone]
      have hkeys : ((cs.cache ++ [(x, (bm.cost cs.run x true).1)]).map Prod.fst)
          = cs.cache.map Prod.fst ++ [x] := by
        simp
      have hns : newSolves bm (cs.cache.map Prod.fst) (x :: xs)
          = (if inBounds bm.cfg (originalParameterSpace bm.cfg x) then 1 else 0)
            + newSolves bm (cs.cache.map Prod.fst ++ [x]) xs := by
        simp [newSolves, hx]
      show (runCalls bm ⟨cs.cache ++ [(x, (bm.cost cs.run x true).1)],
          (bm.cost cs.run x true).2⟩ xs).run.tracker.solveCount = _
      rw [ih, hkeys, hns, cost_solveCount_true bm cs.run x, Nat.add_assoc]

/-- C1: over any sequence of `cost_func` calls on a fresh benchmarker, the
tracker's solve count equals the number of calls that were not cache hits
and whose original-space image passed the bound check; cached repeats and
out-of-bounds calls never increment it. -/
theorem solveCount_invariant (bm : Benchmarker) (xs : List (List ℝ)) :
    (runCalls bm initState xs).run.tracker.solveCount = newSolves bm [] xs := by
  have h := runCalls_solveCount bm xs initState
  simpa [initState, Tracker.init] using h

/- ## C10: tracker sequence lengths under update and reset -/

/-- The operations that mutate a benchmarker's tracker: `Tracker.update`
(with its arguments) and `Benchmarker.reset`, which installs a fresh
`Tracker()`. -/
inductive TrackerOp where
  | update (trueParams : ℕ → ℝ) (est : List ℝ) (n : ℕ) (cost : WithTop ℝ) (inc : Bool)
  | reset

/-- Apply one tracker operation. -/
noncomputable def applyOp (t : Tracker) : TrackerOp → Tracker
  | .update tp est n c inc => t.update tp est n c inc
  | .reset => Tracker.init

lemma lengths_invariant_aux (ops : List TrackerOp) :
    ∀ t : Tracker,
      t.costs.length = t.paramRMSRE.length
        → t.costs.length = t.paramIdentifiedCount.length
        → (ops.foldl applyOp t).costs.length = (ops.foldl applyOp t).paramRMSRE.length
          ∧ (ops.foldl applyOp t).costs.length
              = (ops.foldl applyOp t).paramIdentifiedCount.length := by
  induction ops with
  | nil => intro t h1 h2; exact ⟨h1, h2⟩
  | cons op ops ih =>
    intro t h1 h2
    cases op with
    | update tp est n c inc =>
      exact ih _ (by simp [applyOp, Tracker.update, h1]) (by simp [applyOp, Tracker.update, h2])
    | reset => exact ih _ rfl rfl

/-- C10: after any sequence of `Tracker.update` and reset operations starting
from a fresh tracker the three metric sequences have equal length; each
update appends exactly one entry to each of the three; and a reset yields the
fresh tracker, whose sequences are empty and whose solve count is zero. -/
theorem tracker_lengths_and_reset :
    (∀ ops : List TrackerOp,
      (ops.foldl applyOp Tracker.init).costs.length
          = (ops.foldl applyOp Tracker.init).paramRMSRE.length
      ∧ (ops.foldl applyOp Tracker.init).costs.length
          = (ops.foldl applyOp Tracker.init).paramIdentifiedCount.length)
    ∧ (∀ (t : Tracker) (tp : ℕ → ℝ) (est : List ℝ) (n : ℕ) (c : WithTop ℝ) (inc : Bool),
        (t.update tp est n c inc).costs.length = t.costs.length + 1
        ∧ (t.update tp est n c inc).paramRMSRE.length = t.paramRMSRE.length + 1
        ∧ (t.update tp est n c inc).paramIdentifiedCount.length
            = t.paramIdentifiedCount.length + 1)
    ∧ (∀ t : Tracker, applyOp t TrackerOp.reset = Tracker.init)
    ∧ Tracker.init.costs = [] ∧ Tracker.init.paramRMSRE = []
    ∧ Tracker.init.paramIdentifiedCount = [] ∧ Tracker.init.solveCount = 0 := by
  refine ⟨fun ops => lengths_invariant_aux ops Tracker.init rfl rfl,
    fun t tp est n c inc => ⟨?_, ?_, ?_⟩, fun t => rfl, rfl, rfl, rfl, rfl⟩
  · simp [Tracker.update]
  · simp [Tracker.update]
  · simp [Tracker.update]

/- ## Population primitives of the genetic algorithms -/

section GA

variable {ι : Type} {α : Type} [LinearOrder α]

/-- One step of the max-cost scan in the elitism step of `GA_Bot2012.run` and
`GA_Gurkiewicz2007b.run`: the state carries the running maximum cost
(starting at `-np.inf`, embedded as `⊥`), the index of the running maximum,
and the current loop index. -/
def worstStep (cost : ι → α) (s : WithBot α × ℕ × ℕ) (ind : ι) : WithBot α × ℕ × ℕ :=
  if s.1 < (cost ind : WithBot α) then ((cost ind : WithBot α), s.2.2, s.2.2 + 1)
  else (s.1, s.2.1, s.2.2 + 1)

/-- The elitism step's scan: the first index whose cost strictly exceeds the
running maximum, i.e. the first index attaining the maximal cost. -/
def worstIndex (cost : ι → α) (pop : List ι) : ℕ :=
  (pop.foldl (worstStep cost) (⊥, 0, 0)).2.1

/-- `pop[maxIndex] = copy.deepcopy(elite)`: replace the worst-cost individual
found by the scan with the saved elite. -/
def replaceWorst (cost : ι → α) (pop : List ι) (elite : ι) : List ι :=
  pop.set (worstIndex cost pop) elite

/-- Modelled from the spec: `get_elites(pop, k)` — the k lowest-cost
individuals, ties broken by population order (stable), as copies. The
generic primitive is described in the spec; the source files inline only its
`k = 1` case (the `elite` scan before each generation). -/
def getElites (cost : ι → α) (pop : List ι) (k : ℕ) : List ι :=
  (pop.mergeSort (fun a b => decide (cost a ≤ cost b))).take k

/-- Modelled from the spec: `set_elites(pop, elites)` — replace the
`len(elites)` worst-cost individuals of `pop` with the saved elites. The
generic primitive is described in the spec; the source files inline only its
`k = 1` case (`replaceWorst`). -/
def setElites (cost : ι → α) (pop : List ι) (elites : List ι) : List ι :=
  (pop.mergeSort (fun a b => decide (cost a ≤ cost b))).take (pop.length - elites.length)
    ++ elites

/-- Minimum population cost, `⊤` for an empty population. -/
def popMin (cost : ι → α) (pop : List ι) : WithTop α :=
  (pop.map cost).minimum

lemma worstStep_counter (cost : ι → α) (l : List ι) :
    ∀ s : WithBot α × ℕ × ℕ, (l.foldl (worstStep cost) s).2.2 = s.2.2 + l.length := by
  induction l with
  | nil => intro s; simp
  | cons a l ih =>
    intro s
    rw [List.foldl_cons, ih]
    unfold worstStep
    split <;> (simp; try omega)

lemma worstStep_index_lt (cost : ι → α) (l : List ι) :
    ∀ s : WithBot α × ℕ × ℕ, s.2.1 < s.2.2
      → (l.foldl (worstStep cost) s).2.1 < (l.foldl (worstStep cost) s).2.2 := by
  induction l with
  | nil => intro s h; simpa using h
  | cons a l ih =>
    intro s h
    rw [List.foldl_cons]
    apply ih
    unfold worstStep
    split <;> (simp; try omega)

lemma worstIndex_lt_length (cost : ι → α) (pop : List ι) (h : pop ≠ []) :
    worstIndex cost pop < pop.length := by
  obtain ⟨a, l, rfl⟩ := List.exists_cons_of_ne_nil h
  unfold worstIndex
  rw [List.foldl_cons]
  have hstep : worstStep cost (⊥, 0, 0) a = ((cost a : WithBot α), 0, 1) := by
    unfold worstStep
    rw [if_pos (WithBot.bot_lt_coe _)]
  rw [hstep]
  have hlt := worstStep_index_lt cost l ((cost a : WithBot α), 0, 1) (by norm_num)
  have hcnt : (l.foldl (worstStep cost) ((cost a : WithBot α), 0, 1)).2.2
      = 1 + l.length := by
    simpa using worstStep_counter cost l ((cost a : WithBot α), 0, 1)
  simp only [List.length_cons]
  omega

lemma elite_mem_replaceWorst (cost : ι → α) (pop : List ι) (elite : ι)
    (h : pop ≠ []) : elite ∈ replaceWorst cost pop elite := by
  have hlt : worstIndex cost pop < pop.length := worstIndex_lt_length cost pop h
  have h' : worstIndex cost pop < (pop.set (worstIndex cost pop) elite).length := by
    simpa using hlt
  have h3 := List.getElem_mem h'
  rwa [List.getElem_set_self h'] at h3

lemma popMin_le_of_mem (cost : ι → α) (pop : List ι) (a : ι) (h : a ∈ pop) :
    popMin cost pop ≤ (cost a : WithTop α) :=
  List.minimum_le_of_mem' (List.mem_map_of_mem cost h)

lemma le_popMin (cost : ι → α) (pop : List ι) (c : α)
    (h : ∀ y ∈ pop, c ≤ cost y) : (c : WithTop α) ≤ popMin cost pop := by
  unfold popMin
  rcases hm : (pop.map cost).minimum with _ | m
  · exact le_top
  · obtain ⟨hmem, -⟩ := List.minimum_eq_coe_iff.1 hm
    obtain ⟨y, hy, rfl⟩ := List.mem_map.1 hmem
    exact WithTop.coe_le_coe.2 (h y hy)

/-- The sorted list used by `getElites`/`setElites` is pairwise ordered by
cost and a permutation of the population. -/
lemma sortByCost_pairwise (cost : ι → α) (pop : List ι) :
    List.Pairwise (fun a b => (decide (cost a ≤ cost b)) = true)
      (pop.mergeSort (fun a b => decide (cost a ≤ cost b))) := by
  apply List.sorted_mergeSort
  · intro a b c hab hbc
    simp only [decide_eq_true_eq] at *
    exact le_trans hab hbc
  · intro a b
    rcases le_total (cost a) (cost b) with h | h <;> simp [h]

/-- For a nonempty population and `k ≥ 1`, `getElites` contains an
individual of globally minimal cost. -/
lemma getElites_has_min (cost : ι → α) (pop : List ι) (k : ℕ)
    (hk : 1 ≤ k) (hne : pop ≠ []) :
    ∃ e ∈ getElites cost pop k, ∀ y ∈ pop, cost e ≤ cost y := by
  have hperm := List.mergeSort_perm pop (fun a b => decide (cost a ≤ cost b))
  rcases hs : pop.mergeSort (fun a b => decide (cost a ≤ cost b)) with _ | ⟨b, t⟩
  · rw [hs] at hperm
    exact absurd (hperm.symm.eq_nil) hne
  · refine ⟨b, ?_, ?_⟩
    · unfold getElites
      rw [hs]
      cases k with
      | zero => omega
      | succ m => simp [List.take_succ_cons]
    · intro y hy
      have hy' : y ∈ b :: t := by
        rw [← hs]
        exact ((List.mergeSort_perm pop _).mem_iff).2 hy
      rcases List.mem_cons.1 hy' with rfl | hyt
      · exact le_refl _
      · have hp := sortByCost_pairwise cost pop
        rw [hs] at hp
        have := (List.pairwise_cons.1 hp).1 y hyt
        simpa using this

/-- C6: elitism never lets the best-known cost regress. First conjunct: the
inline elitism step of the source files — replacing the first maximal-cost
individual of the post-generation population with the elite saved before the
generation (a minimal-cost member of the pre-generation population) leaves
the population minimum at or below the pre-generation minimum. Second
conjunct: the same for the spec's generic `set_elites` with the `k ≥ 1`
elites saved by `get_elites`. -/
theorem elitism_never_regresses (ι α : Type) [LinearOrder α] (cost : ι → α) :
    (∀ (prePop pop : List ι) (elite : ι),
      elite ∈ prePop → (∀ y ∈ prePop, cost elite ≤ cost y) → pop ≠ [] →
        popMin cost (replaceWorst cost pop elite) ≤ popMin cost prePop)
    ∧ (∀ (prePop pop : List ι) (k : ℕ),
        1 ≤ k → prePop ≠ [] →
        popMin cost (setElites cost pop (getElites cost prePop k))
          ≤ popMin cost prePop) := by
  constructor
  · intro prePop pop elite hmem hmin hne
    have h1 : popMin cost (replaceWorst cost pop elite) ≤ (cost elite : WithTop α) :=
      popMin_le_of_mem cost _ elite (elite_mem_replaceWorst cost pop elite hne)
    have h2 : (cost elite : WithTop α) ≤ popMin cost prePop :=
      le_popMin cost prePop (cost elite) hmin
    exact le_trans h1 h2
  · intro prePop pop k hk hne
    obtain ⟨e, hmem, hmin⟩ := getElites_has_min cost prePop k hk hne
    have hmem' : e ∈ setElites cost pop (getElites cost prePop k) := by
      unfold setElites
      exact List.mem_append_right _ hmem
    have h1 : popMin cost (setElites cost pop (getElites cost prePop k))
        ≤ (cost e : WithTop α) := popMin_le_of_mem cost _ e hmem'
    have h2 : (cost e : WithTop α) ≤ popMin cost prePop :=
      le_popMin cost prePop (cost e) hmin
    exact le_trans h1 h2

end GA

/-- Witness for C6 at the spec's Scenario D: pre-generation costs
`[5, 3, 8, 1]`, post-generation costs `[9, 9, 9, 9]`, elite cost 1, `k = 1`
(costs stand for the individuals themselves). The minimum after the elitism
step is at most 1. -/
theorem elitism_never_regresses_witness :
    ((1 : ℕ) ∈ [5, 3, 8, 1] ∧ (∀ y ∈ [5, 3, 8, 1], (1 : ℕ) ≤ y)
        ∧ ([9, 9, 9, 9] : List ℕ) ≠ [])
    ∧ popMin id (replaceWorst id [9, 9, 9, 9] 1) ≤ popMin id [5, 3, 8, 1]
    ∧ popMin id (setElites id [9, 9, 9, 9] (getElites id [5, 3, 8, 1] 1))
        ≤ popMin id [5, 3, 8, 1] :=
  ⟨⟨by decide, by decide, by decide⟩,
    (elitism_never_regresses ℕ ℕ id).1 [5, 3, 8, 1] [9, 9, 9, 9] 1
      (by decide) (by decide) (by decide),
    (elitism_never_regresses ℕ ℕ id).2 [5, 3, 8, 1] [9, 9, 9, 9] 1
      (by decide) (by decide)⟩

/- ## C7: tournament selection -/

section Tournament

variable {ι : Type} {α : Type} [LinearOrder α]

/-- One tournament pass of `GA_Bot2012.run`: for `i in range(popSize // 2)`,
copy `pop[perm[2*i]]` into the new population when its cost is strictly below
that of `pop[perm[2*i+1]]`, else copy `pop[perm[2*i+1]]`. -/
def selRoundBot (cost : ι → α) (pop : ℕ → ι) (popSize : ℕ) (perm : ℕ → ℕ) : List ι :=
  (List.range (popSize / 2)).map (fun i =>
    if cost (pop (perm (2 * i))) < cost (pop (perm (2 * i + 1))) then pop (perm (2 * i))
    else pop (perm (2 * i + 1)))

/-- The tournament selection of `GA_Bot2012.run`: two passes (`for j in
range(2)`), one per random permutation, appended in order. -/
def tournamentBot (cost : ι → α) (pop : ℕ → ι) (popSize : ℕ)
    (perm1 perm2 : ℕ → ℕ) : List ι :=
  selRoundBot cost pop popSize perm1 ++ selRoundBot cost pop popSize perm2

/-- One tournament pass of `GA_Gurkiewicz2007b.run`: the comparison is
`pop[perm[2*i]].cost > pop[perm[2*i+1]].cost`, so the pair member that is
copied is the one of higher (or, on ties, second) cost. -/
def selRoundGurk (cost : ι → α) (pop : ℕ → ι) (popSize : ℕ) (perm : ℕ → ℕ) : List ι :=
  (List.range (popSize / 2)).map (fun i =>
    if cost (pop (perm (2 * i + 1))) < cost (pop (perm (2 * i))) then pop (perm (2 * i))
    else pop (perm (2 * i + 1)))

/-- The tournament selection of `GA_Gurkiewicz2007b.run`: two passes, one per
random permutation, appended in order. -/
def tournamentGurk (cost : ι → α) (pop : ℕ → ι) (popSize : ℕ)
    (perm1 perm2 : ℕ → ℕ) : List ι :=
  selRoundGurk cost pop popSize perm1 ++ selRoundGurk cost pop popSize perm2

end Tournament

/-- C7, evaluated at the failing input: a population of two individuals with
costs 1 and 2 (the cost is the individual) and identity permutations. The
`GA_Gurkiewicz2007b` selection loop copies the cost-2 individual into both
slots of the new population — it selects the higher-cost member of each
pair — while the `GA_Bot2012` loop copies the cost-1 individual as the claim
describes. -/
theorem gurkiewicz_selection_copies_higher_cost :
    tournamentGurk id (fun i => if i = 0 then 1 else 2) 2 id id = ([2, 2] : List ℕ)
    ∧ tournamentBot id (fun i => if i = 0 then 1 else 2) 2 id id = ([1, 1] : List ℕ) := by
  decide

/- ## C8: population initialisation from an initial guess -/

/-- Elementwise product of a parameter vector with the per-axis random
factors, `vector * np.random.uniform(low=0.5, high=1.5, size=n)` with the
drawn factors passed explicitly as `u`. -/
noncomputable def mulFactors (p : List ℝ) (u : ℕ → ℝ) : List ℝ :=
  (List.range p.length).map (fun i => p.getD i 0 * u i)

/-- Modelled from the spec: `clamp_parameters` (called by
`Individual.__init__` in `GA_Bot2012` but defined in the benchmarker module,
which is not among the sources) — a final, hard per-axis clip to `[lb, ub]`
when bounds are configured; with no bounds there is nothing to clip. -/
noncomputable def clampParameters (cfg : Config) (p : List ℝ) : List ℝ :=
  if cfg.bounded = true then
    (List.range p.length).map (fun i => max (cfg.lb i) (min (cfg.ub i) (p.getD i 0)))
  else p

/-- `Individual.__init__` of `GA_Bot2012.run` when `x0` is supplied:
`bm.input_parameter_space(bm.original_parameter_space(x0) * u)` followed by
`bm.clamp_parameters(...)`. -/
noncomputable def botPerturb (cfg : Config) (x0 : List ℝ) (u : ℕ → ℝ) : List ℝ :=
  clampParameters cfg
    (inputParameterSpace cfg (mulFactors (originalParameterSpace cfg x0) u))

/-- `individual.__init__` of `GA_Gurkiewicz2007b.run` when `x0` is supplied:
`x0 * np.random.uniform(low=0.5, high=1.5, size=bm.n_parameters())` — the
input-space guess is multiplied directly, with no space conversion and no
clamping. -/
noncomputable def gurkPerturb (x0 : List ℝ) (u : ℕ → ℝ) : List ℝ :=
  mulFactors x0 u

lemma mulFactors_length (p : List ℝ) (u : ℕ → ℝ) :
    (mulFactors p u).length = p.length := by
  simp [mulFactors]

lemma mulFactors_getD (p : List ℝ) (u : ℕ → ℝ) (i : ℕ) (h : i < p.length) :
    (mulFactors p u).getD i 0 = p.getD i 0 * u i := by
  simp [mulFactors, List.getD_eq_getElem?_getD, List.getElem?_range, h]

lemma clampParameters_of_unbounded (cfg : Config) (p : List ℝ)
    (h : cfg.bounded = false) : clampParameters cfg p = p := by
  simp [clampParameters, h]

/-- C8 (amended): the two initialisers differ. In `GA_Bot2012` the
original-space image of the drawn individual is the original-space image of
`x0` scaled per-axis by the drawn factor (stated without bounds, where the
final clamp is the identity); in `GA_Gurkiewicz2007b` the drawn individual is
the input-space `x0` scaled per-axis by the factor directly, with no space
conversion and no clamping. -/
theorem perturb_initialisers (cfg : Config) (x0 : List ℝ) (u : ℕ → ℝ) (i : ℕ)
    (hnb : cfg.bounded = false) (hd : 0 < cfg.defaultParams i)
    (hin : i < cfg.n) (hil : i < x0.length)
    (hpos : cfg.logTransformParams i = true
      → 0 < (originalParameterSpace cfg x0).getD i 0 * u i) :
    (originalParameterSpace cfg (botPerturb cfg x0 u)).getD i 0
        = (originalParameterSpace cfg x0).getD i 0 * u i
    ∧ (gurkPerturb x0 u).getD i 0 = x0.getD i 0 * u i := by
  constructor
  · unfold botPerturb
    rw [clampParameters_of_unbounded cfg _ hnb]
    have hlw : i < (mulFactors (originalParameterSpace cfg x0) u).length := by
      rw [mulFactors_length, originalParameterSpace_length]
      exact hil
    have hw : (mulFactors (originalParameterSpace cfg x0) u).getD i 0
        = (originalParameterSpace cfg x0).getD i 0 * u i :=
      mulFactors_getD _ u i (by rw [originalParameterSpace_length]; exact hil)
    rw [originalParameterSpace_getD, inputParameterSpace_length,
      if_pos ⟨hin, hlw⟩, inputParameterSpace_getD, if_pos ⟨hin, hlw⟩,
      originalElem_inputElem cfg i _ hd (fun hf => hw ▸ hpos hf), hw]
  · exact mulFactors_getD x0 u i hil

/-- Configuration of the C8 witness: one parameter, scale factor on, the
parameter log-transformed, default parameter 2, no bounds. -/
noncomputable def cfgC8w : Config :=
  ⟨1, true, fun _ => true, fun _ => 2, false, fun _ => 0, fun _ => 0⟩

/-- Witness for the amended C8 at `x0 = [4]`, unit factors, index 0. -/
theorem perturb_initialisers_witness :
    cfgC8w.bounded = false ∧ (0 : ℝ) < cfgC8w.defaultParams 0
    ∧ (cfgC8w.logTransformParams 0 = true
        → 0 < (originalParameterSpace cfgC8w [4]).getD 0 0 * 1)
    ∧ (originalParameterSpace cfgC8w (botPerturb cfgC8w [4] (fun _ => 1))).getD 0 0
        = (originalParameterSpace cfgC8w [4]).getD 0 0 * 1
    ∧ (gurkPerturb [4] (fun _ => 1)).getD 0 0 = ([4] : List ℝ).getD 0 0 * 1 := by
  have horig : originalParameterSpace cfgC8w [4] = [Real.exp 4 * 2] := by
    unfold originalParameterSpace
    have hr : List.range cfgC8w.n = [0] := by simp [cfgC8w, List.range_succ]
    rw [hr]
    simp [originalStep, cfgC8w, getD_set_self]
  have hpos : cfgC8w.logTransformParams 0 = true
      → 0 < (originalParameterSpace cfgC8w [4]).getD 0 0 * 1 := by
    intro
    rw [horig]
    simp only [List.getD_cons_zero, mul_one]
    positivity
  have hmain := perturb_initialisers cfgC8w [4] (fun _ => 1) 0 rfl
    (by norm_num [cfgC8w]) (by norm_num [cfgC8w]) (by norm_num) hpos
  exact ⟨rfl, by norm_num [cfgC8w], hpos, hmain.1, hmain.2⟩

/-- Configuration of the C8 counterexample: one log-transformed parameter,
no scale factor, no bounds. -/
noncomputable def cfgC8 : Config :=
  ⟨1, false, fun _ => true, fun _ => 1, false, fun _ => 0, fun _ => 0⟩

/-- C8 counterexample: with a log-transformed parameter, initial guess
`x0 = [0]` and drawn factor 1.5, the `GA_Gurkiewicz2007b` initialiser yields
`[0]` while the claimed recipe — perturb `x0` in original space by the
factor, then map back (and clamp, here trivially) — yields `[log 1.5]`. The
claim is false of `GA_Gurkiewicz2007b.individual.__init__`. -/
theorem gurkiewicz_initialiser_differs :
    gurkPerturb [0] (fun _ => 3 / 2) ≠ botPerturb cfgC8 [0] (fun _ => 3 / 2) := by
  have hg : gurkPerturb [0] (fun _ => 3 / 2) = [0] := by
    unfold gurkPerturb mulFactors
    norm_num [List.range_succ]
  have horig : originalParameterSpace cfgC8 [0] = [1] := by
    unfold originalParameterSpace
    have hr : List.range cfgC8.n = [0] := by simp [cfgC8, List.range_succ]
    rw [hr]
    simp [originalStep, cfgC8, getD_set_self, Real.exp_zero]
  have hmul : mulFactors [1] (fun _ => 3 / 2) = [3 / 2] := by
    unfold mulFactors
    norm_num [List.range_succ]
  have hinp : inputParameterSpace cfgC8 [3 / 2] = [Real.log (3 / 2)] := by
    unfold inputParameterSpace
    have hr : List.range cfgC8.n = [0] := by simp [cfgC8, List.range_succ]
    rw [hr]
    simp [inputStep, cfgC8, getD_set_self]
  have hb : botPerturb cfgC8 [0] (fun _ => 3 / 2) = [Real.log (3 / 2)] := by
    unfold botPerturb
    rw [clampParameters_of_unbounded cfgC8 _ rfl, horig, hmul, hinp]
  rw [hg, hb]
  intro h
  simp only [List.cons.injEq, and_true] at h
  have := h.symm
  rw [Real.log_eq_zero] at this
  norm_num at this

end IonBench
